import Mathlib

/-!
# Verification of the log2vcd core against its specification

This file shallowly embeds the core of the `log2vcd` program:

* `src/value_change.rs` — the log-line parser `ValueChange::from_str`,
  built on the regex `#(\d+)\s([a-zA-Z0-9.]+)\s([01xXzZ]+|\d+\.\d+)\s(\d+|f)`
  applied with `Regex::captures` (an *unanchored search* over the trimmed
  line, leftmost-first semantics of the `regex` crate);
* `src/main.rs` — the pipeline: parse every line dropping failures,
  stable-sort the surviving events by timestamp, build the signal registry
  (first-occurrence inference, identifiers drawn from `0u32..93u32`), and
  encode the VCD body (one timestamp marker written per event, then the
  event's change record).

Modelling conventions:

* Strings are `List Char`; input is treated as ASCII, so the regex classes
  `\d` and `\s` are modelled by their ASCII parts (claims only involve
  ASCII input).  `[a-zA-Z0-9.]` and `[01xXzZ]` are ASCII in the regex too.
* `u64`/`usize` parsing (`u64::from_str`, `usize::from_str`) is modelled on
  digit strings with the 64-bit overflow bound `2^64` made explicit.
* `f64::from_str` is only ever applied to tokens drawn from the regex
  language `[01xXzZ]+ | \d+\.\d+`; it is modelled on exactly these shapes
  (a digit string, or `\d+\.\d+`), returning the literal's exact value as a
  rational.  Within that language Rust's `f64::from_str` succeeds exactly
  on those two shapes, so success/failure is modelled faithfully.
* Fatal conditions (`.expect`/`.unwrap` panics) are modelled as `none`.
-/

/-! ## Character classes (ASCII fragments of the regex classes) -/

/-- ASCII part of the regex class `\s` (and of `str::trim`'s whitespace). -/
def isWsChar (c : Char) : Bool :=
  c = ' ' || c = '\t' || c = '\n' || c = '\r' || c = '\x0b' || c = '\x0c'

/-- ASCII decimal digit, the class `\d` (restricted to ASCII input). -/
def isDigitChar (c : Char) : Bool :=
  '0' ≤ c && c ≤ '9'

/-- The signal-name class `[a-zA-Z0-9.]` (exactly ASCII in the regex). -/
def isNameChar (c : Char) : Bool :=
  ('a' ≤ c && c ≤ 'z') || ('A' ≤ c && c ≤ 'Z') || isDigitChar c || c = '.'

/-- The bit-value class `[01xXzZ]`. -/
def isBitChar (c : Char) : Bool :=
  c = '0' || c = '1' || c = 'x' || c = 'X' || c = 'z' || c = 'Z'

/-- Coerce a Lean string literal to the character-list representation. -/
def str (s : String) : List Char := s.data

/-! ## Data model (`src/value_change.rs`) -/

/-- `enum ScalarValue { V0, V1, X, Z }`. -/
inductive ScalarValue where
  | V0 | V1 | X | Z
  deriving DecidableEq, Repr

/-- `enum Value { Scalar(..), BinaryVector{width, value}, Real(f64) }`.
Real payloads are modelled as exact rationals (see the header comment). -/
inductive Value where
  | Scalar (v : ScalarValue)
  | BinaryVector (width : Nat) (value : List ScalarValue)
  | Real (v : ℚ)
  deriving DecidableEq, Repr

/-- `struct ValueChange { timestamp: u64, signal_name: String, value: Value }`. -/
structure ValueChange where
  timestamp : Nat
  signal_name : List Char
  value : Value
  deriving DecidableEq, Repr

/-- `enum ParseValueChangeError` of `src/value_change.rs`. -/
inductive ParseValueChangeError where
  | InvalidFormat
  | ParseTimestampErr
  | InvalidValueType
  | InvalidValue
  | ValueTooLargeForVecWidth
  deriving DecidableEq, Repr

/-! ## The regex `#(\d+)\s([a-zA-Z0-9.]+)\s([01xXzZ]+|\d+\.\d+)\s(\d+|f)`

`Regex::captures` performs an unanchored, leftmost-first search.  The
pattern starts with the literal `#`, and no character class of the pattern
contains `#` or whitespace, which pins down the backtracking behaviour:

* group 1 is the maximal digit run after a `#`, which must be followed by
  one whitespace character;
* group 2 is a whole whitespace-delimited token of name characters;
* group 3 is a whole whitespace-delimited token that is either entirely
  `[01xXzZ]+` (tried first) or entirely `\d+\.\d+`;
* group 4 has no follow-up requirement, so it matches the maximal digit
  *prefix* of the next token, or the single letter `f` when there is no
  digit prefix.

`matchAfterHash` renders a single match attempt at a given `#`;
`findCaptures` scans for the leftmost successful attempt. -/

/-- The four capture groups of the regex. -/
structure RawGroups where
  ts : List Char
  name : List Char
  val : List Char
  sz : List Char
  deriving DecidableEq, Repr

/-- Group 4, `(\d+|f)`: maximal digit prefix, else a leading `f`. -/
def matchSize (cs : List Char) : Option (List Char) :=
  let d := cs.takeWhile isDigitChar
  if d.isEmpty then
    match cs with
    | c :: _ => if c = 'f' then some ['f'] else none
    | [] => none
  else some d

/-- The second alternative of group 3 with the trailing `\s(\d+|f)`:
`(\d+\.\d+)\s(\d+|f)`. -/
def matchValueDecimal (cs : List Char) : Option (List Char × List Char) :=
  let d1 := cs.takeWhile isDigitChar
  match cs.drop d1.length with
  | c :: rest2 =>
    if d1.isEmpty ∨ ¬ c = '.' then none
    else
      let d2 := rest2.takeWhile isDigitChar
      match rest2.drop d2.length with
      | c2 :: rest3 =>
        if d2.isEmpty ∨ ¬ isWsChar c2 then none
        else (matchSize rest3).map (fun szg => (d1 ++ '.' :: d2, szg))
      | [] => none
  | [] => none

/-- Groups 3 and 4 with the separating `\s`: `([01xXzZ]+|\d+\.\d+)\s(\d+|f)`.
The first alternative is tried first; if its continuation fails the engine
falls back to the second alternative (PCRE-style ordered alternation). -/
def matchValueSize (cs : List Char) : Option (List Char × List Char) :=
  let b1 := cs.takeWhile isBitChar
  if b1.isEmpty then matchValueDecimal cs
  else
    match cs.drop b1.length with
    | c :: rest2 =>
      if isWsChar c then
        match matchSize rest2 with
        | some szg => some (b1, szg)
        | none => matchValueDecimal cs
      else matchValueDecimal cs
    | [] => matchValueDecimal cs

/-- One match attempt of the pattern at a `#`, on the text after the `#`. -/
def matchAfterHash (cs : List Char) : Option RawGroups :=
  let ts := cs.takeWhile isDigitChar
  if ts.isEmpty then none
  else
    match cs.drop ts.length with
    | c :: rest1 =>
      if ¬ isWsChar c then none
      else
        let nm := rest1.takeWhile isNameChar
        if nm.isEmpty then none
        else
          match rest1.drop nm.length with
          | c2 :: rest2 =>
            if ¬ isWsChar c2 then none
            else (matchValueSize rest2).map fun p => ⟨ts, nm, p.1, p.2⟩
          | [] => none
    | [] => none

/-- `Regex::captures`: leftmost-first unanchored search. -/
def findCaptures : List Char → Option RawGroups
  | [] => none
  | c :: rest =>
    if c = '#' then
      match matchAfterHash rest with
      | some g => some g
      | none => findCaptures rest
    else findCaptures rest

/-- `str::trim` (ASCII whitespace model). -/
def trimChars (cs : List Char) : List Char :=
  ((cs.dropWhile isWsChar).reverse.dropWhile isWsChar).reverse

/-! ## Number and token parsing -/

/-- Numeric value of a decimal digit string. -/
def natOfDigits (cs : List Char) : Nat :=
  cs.foldl (fun n c => 10 * n + (c.toNat - '0'.toNat)) 0

/-- `u64::from_str` / `usize::from_str` on a token: nonempty ASCII digit
string whose value fits in 64 bits. -/
def parseU64 (cs : List Char) : Option Nat :=
  if cs ≠ [] ∧ cs.all isDigitChar ∧ natOfDigits cs < 2 ^ 64 then
    some (natOfDigits cs)
  else none

/-- `f64::from_str`, modelled on the token shapes the regex admits
(`[01xXzZ]+` or `\d+\.\d+`): succeeds exactly on a digit string or on
`\d+\.\d+`, with the literal's exact rational value. -/
def parseF64 (cs : List Char) : Option ℚ :=
  if cs ≠ [] ∧ cs.all isDigitChar then some (natOfDigits cs)
  else
    let d1 := cs.takeWhile isDigitChar
    match cs.drop d1.length with
    | c :: rest2 =>
      if d1 ≠ [] ∧ c = '.' ∧ rest2 ≠ [] ∧ rest2.all isDigitChar then
        some ((natOfDigits d1 : ℚ) + (natOfDigits rest2 : ℚ) / ((10 : ℚ) ^ rest2.length))
      else none
    | [] => none

/-- `ScalarValue::from_str`: the token must be exactly one of
`"0" | "1" | "x" | "X" | "z" | "Z"`. -/
def scalarOfToken (cs : List Char) : Option ScalarValue :=
  if cs = ['0'] then some .V0
  else if cs = ['1'] then some .V1
  else if cs = ['x'] ∨ cs = ['X'] then some .X
  else if cs = ['z'] ∨ cs = ['Z'] then some .Z
  else none

/-- One character of the binary-vector loop in `ValueChange::from_str`. -/
def scalarOfChar (c : Char) : Option ScalarValue :=
  if c = '0' then some .V0
  else if c = '1' then some .V1
  else if c = 'x' ∨ c = 'X' then some .X
  else if c = 'z' ∨ c = 'Z' then some .Z
  else none

/-- The binary-vector character loop: first offending character aborts with
`InvalidValue` (modelled as `none`), otherwise the digits in order. -/
def vecOfToken : List Char → Option (List ScalarValue)
  | [] => some []
  | c :: rest =>
    match scalarOfChar c with
    | none => none
    | some v => (vecOfToken rest).map (v :: ·)

/-- The post-capture processing of `ValueChange::from_str`
(`src/value_change.rs`, lines 83–127), applied to the capture groups. -/
def fromGroups (g : RawGroups) : Except ParseValueChangeError ValueChange :=
  match parseU64 g.ts with
  | none => .error .ParseTimestampErr
  | some t =>
    if g.sz = ['f'] then
      match parseF64 g.val with
      | none => .error .InvalidValue
      | some r => .ok ⟨t, g.name, .Real r⟩
    else
      match parseU64 g.sz with
      | none => .error .InvalidValueType
      | some w =>
        if w = 1 then
          match scalarOfToken g.val with
          | none => .error .InvalidValue
          | some v => .ok ⟨t, g.name, .Scalar v⟩
        else
          match vecOfToken g.val with
          | none => .error .InvalidValue
          | some vec =>
            if vec.length > w then .error .ValueTooLargeForVecWidth
            else .ok ⟨t, g.name, .BinaryVector w vec⟩

/-- `ValueChange::from_str` (`src/value_change.rs`, lines 73–128). -/
def ValueChange.from_str (s : List Char) : Except ParseValueChangeError ValueChange :=
  match findCaptures (trimChars s) with
  | none => .error .InvalidFormat
  | some g => fromGroups g

instance {ε α : Type} [DecidableEq ε] [DecidableEq α] : DecidableEq (Except ε α) := fun x y =>
  match x, y with
  | .error a, .error b =>
    if h : a = b then isTrue (congrArg Except.error h)
    else isFalse (by simp [h])
  | .ok a, .ok b =>
    if h : a = b then isTrue (congrArg Except.ok h)
    else isFalse (by simp [h])
  | .error a, .ok b => isFalse (fun he => Except.noConfusion he)
  | .ok a, .error b => isFalse (fun he => Except.noConfusion he)

/-! ## The pipeline (`src/main.rs`) -/

/-- The `vcd::VarType` values the program uses (`main.rs` lines 76–80). -/
inductive VarType where
  | Wire | Integer | RealType
  deriving DecidableEq, Repr

/-- One registry value: `(VarType, usize, IdCode)` (`main.rs` line 72).
The id code is the `u32` drawn from `id_iter`. -/
structure RegEntry where
  varType : VarType
  size : Nat
  code : Nat
  deriving DecidableEq, Repr

/-- The signal registry `HashMap<String, (VarType, usize, IdCode)>`,
modelled as an insertion-ordered association list (the program never
overwrites an existing key, so lookup semantics coincide). -/
abbrev Registry := List (List Char × RegEntry)

/-- `variables.get(name)` / `variables.entry(name)` presence test. -/
def regLookup (reg : Registry) (n : List Char) : Option RegEntry :=
  (reg.find? (fun p => p.1 = n)).map (·.2)

/-- The type/width inference of `or_insert_with` (`main.rs` lines 76–80):
`Scalar → (Wire, 1)`, `BinaryVector{width} → (Integer, width)`,
`Real → (Real, 32)`. -/
def typeWidthFor : Value → VarType × Nat
  | .Scalar _ => (.Wire, 1)
  | .BinaryVector w _ => (.Integer, w)
  | .Real _ => (.RealType, 32)

/-- The registry-building loop (`main.rs` lines 74–84).  `next` is the
state of `id_iter = 0u32..93u32`; `id_iter.next()` returning `None` — the
`expect("Input has too many variables, ran out of ids.")` panic — is
modelled as `none`. -/
def buildRegistryAux : Registry → Nat → List ValueChange → Option Registry
  | reg, _, [] => some reg
  | reg, next, e :: rest =>
    match regLookup reg e.signal_name with
    | some _ => buildRegistryAux reg next rest
    | none =>
      if next < 93 then
        buildRegistryAux
          (reg ++ [(e.signal_name,
            ⟨(typeWidthFor e.value).1, (typeWidthFor e.value).2, next⟩)])
          (next + 1) rest
      else none

/-- Registry construction from the (sorted) event list. -/
def buildRegistry (evs : List ValueChange) : Option Registry :=
  buildRegistryAux [] 0 evs

/-- One record of the encoded body: a `#<timestamp>` marker, or a change
record (scalar / vector / real) carrying the signal's id code. -/
inductive OutRec where
  | timestamp (t : Nat)
  | scalar (id : Nat) (v : ScalarValue)
  | vector (id : Nat) (v : List ScalarValue)
  | realChange (id : Nat) (v : ℚ)
  deriving DecidableEq, Repr

/-- One iteration of the body loop (`main.rs` lines 115–133): an
unconditional `writer.timestamp(change.timestamp)` followed by the change
record.  `variables.get(..).unwrap()` panicking on a missing name is
modelled as `none`. -/
def encodeEvent (reg : Registry) (e : ValueChange) : Option (List OutRec) :=
  match regLookup reg e.signal_name with
  | none => none
  | some ent =>
    some [OutRec.timestamp e.timestamp,
      match e.value with
      | .Scalar v => OutRec.scalar ent.code v
      | .BinaryVector _ v => OutRec.vector ent.code v
      | .Real v => OutRec.realChange ent.code v]

/-- The whole body loop over the sorted events. -/
def encodeBody (reg : Registry) : List ValueChange → Option (List OutRec)
  | [] => some []
  | e :: rest =>
    match encodeEvent reg e with
    | none => none
    | some r1 =>
      match encodeBody reg rest with
      | none => none
      | some r2 => some (r1 ++ r2)

/-- `value_changes.sort_by_key(|v| v.timestamp)` — Rust's `sort_by_key` is
a stable sort; modelled by the (stable) `List.mergeSort`. -/
def sortEvents (evs : List ValueChange) : List ValueChange :=
  evs.mergeSort (fun a b => a.timestamp ≤ b.timestamp)

/-- `input_reader.lines().filter_map(|l| ValueChange::from_str(..).ok())`
(`main.rs` lines 64–66): parse every line, silently dropping failures. -/
def parseLines (lines : List (List Char)) : List ValueChange :=
  lines.filterMap (fun l => (ValueChange.from_str l).toOption)

/-- The sorted surviving events of an input. -/
def pipelineEvents (lines : List (List Char)) : List ValueChange :=
  sortEvents (parseLines lines)

/-- The timestamp carried by a body record, if it is a marker. -/
def tsOf : OutRec → Option Nat
  | .timestamp t => some t
  | _ => none

/-! ## Spec-side definition for claim C4 -/

/-- Modelled from the spec: the claim C4 reading of §4.1's grammar, in
which the *whole* whitespace-trimmed line must be exactly
`#<timestamp> <signal_name> <value-token> <size-token>` — four
whitespace-separated fields with nothing before or after, the value-token
a bit string or a decimal literal, the size-token a digit string or `f`.
(The code itself is *not* anchored this way; this definition exists only
to state and refute C4.) -/
def specExactGrammar (cs : List Char) : Bool :=
  match cs with
  | '#' :: rest =>
    let ts := rest.takeWhile isDigitChar
    match rest.drop ts.length with
    | c :: rest1 =>
      (!ts.isEmpty) && isWsChar c &&
        (let nm := rest1.takeWhile isNameChar
         match rest1.drop nm.length with
         | c2 :: rest2 =>
           (!nm.isEmpty) && isWsChar c2 &&
             (let v := rest2.takeWhile (fun x => !isWsChar x)
              match rest2.drop v.length with
              | c3 :: sz =>
                isWsChar c3 &&
                  (v.all isBitChar ||
                    (let d1 := v.takeWhile isDigitChar
                     match v.drop d1.length with
                     | '.' :: d2 => (!d1.isEmpty) && (!d2.isEmpty) && d2.all isDigitChar
                     | _ => false)) &&
                  (!v.isEmpty) && (!sz.isEmpty) &&
                  (sz.all isDigitChar || sz = ['f'])
              | [] => false)
         | [] => false)
    | [] => false
  | _ => false

/-! ## Helper lemmas: character classes and tokens -/

/-- A grammar-shaped line built from its four fields, single spaces between. -/
def mkLine (ts nm val sz : List Char) : List Char :=
  '#' :: (ts ++ ' ' :: (nm ++ ' ' :: (val ++ ' ' :: sz)))

/-- Total version of `scalarOfChar` on the bit-character class. -/
def scalarOfCharD (c : Char) : ScalarValue :=
  (scalarOfChar c).getD .V0

theorem isWsChar_eq_false_of_isDigitChar {c : Char} (h : isDigitChar c = true) :
    isWsChar c = false := by
  by_contra hw
  rw [Bool.not_eq_false] at hw
  simp only [isWsChar, Bool.or_eq_true, decide_eq_true_eq] at hw
  rcases hw with ((((h1 | h1) | h1) | h1) | h1) | h1 <;> subst h1 <;>
    simp [isDigitChar] at h

theorem isWsChar_eq_false_of_isBitChar {c : Char} (h : isBitChar c = true) :
    isWsChar c = false := by
  simp only [isBitChar, Bool.or_eq_true, decide_eq_true_eq] at h
  rcases h with ((((h1 | h1) | h1) | h1) | h1) | h1 <;> subst h1 <;> decide

theorem not_all_digit_of_eq_f {sz : List Char} (h : sz.all isDigitChar = true)
    (hf : sz = ['f']) : False := by
  subst hf; simp [isDigitChar] at h

/-- A token of `p`-characters followed by a non-`p` character is the
maximal `p`-run. -/
theorem takeWhile_token (p : Char → Bool) (tok : List Char) (c : Char) (rest : List Char)
    (h : tok.all p = true) (hc : p c = false) :
    (tok ++ c :: rest).takeWhile p = tok := by
  rw [List.takeWhile_append_of_pos (by simpa [List.all_eq_true] using h)]
  simp [List.takeWhile_cons, hc]

theorem drop_token (tok : List Char) (c : Char) (rest : List Char) :
    (tok ++ c :: rest).drop tok.length = c :: rest :=
  List.drop_left tok (c :: rest)

theorem dropWhile_eq_self_of_head {p : Char → Bool} {l : List Char}
    (h : ∀ a, l.head? = some a → p a = false) : l.dropWhile p = l := by
  cases l with
  | nil => rfl
  | cons a t => simp [List.dropWhile_cons, h a rfl]

theorem trimChars_eq_self {cs : List Char}
    (h1 : ∀ a, cs.head? = some a → isWsChar a = false)
    (h2 : ∀ a, cs.getLast? = some a → isWsChar a = false) : trimChars cs = cs := by
  unfold trimChars
  rw [dropWhile_eq_self_of_head h1]
  rw [dropWhile_eq_self_of_head (fun a ha => h2 a (by rwa [List.head?_reverse] at ha))]
  exact List.reverse_reverse cs

theorem getLast?_mkLine {ts nm val sz : List Char} (h : sz ≠ []) :
    (mkLine ts nm val sz).getLast? = sz.getLast? := by
  have hsome : sz.getLast?.isSome := by
    cases sz with
    | nil => exact absurd rfl h
    | cons a t => simp [List.getLast?_isSome]
  unfold mkLine
  rw [List.getLast?_cons, List.getLast?_append, List.getLast?_cons, List.getLast?_append,
    List.getLast?_cons, List.getLast?_append, List.getLast?_cons]
  cases hs : sz.getLast? with
  | none => rw [hs] at hsome; simp at hsome
  | some a => simp [hs]

theorem trimChars_mkLine {ts nm val sz : List Char} (hsz : sz ≠ [])
    (hnws : ∀ c ∈ sz, isWsChar c = false) :
    trimChars (mkLine ts nm val sz) = mkLine ts nm val sz := by
  apply trimChars_eq_self
  · intro a ha
    simp only [mkLine, List.head?_cons, Option.some.injEq] at ha
    subst ha; rfl
  · intro a ha
    rw [getLast?_mkLine hsz] at ha
    exact hnws a (List.mem_of_getLast?_eq_some ha)


theorem isEmpty_false {l : List Char} (h : l ≠ []) : l.isEmpty = false := by
  cases l with
  | nil => exact absurd rfl h
  | cons a t => rfl

theorem matchSize_digits {sz : List Char} (h1 : sz ≠ []) (h2 : sz.all isDigitChar = true) :
    matchSize sz = some sz := by
  have h : sz.takeWhile isDigitChar = sz :=
    List.takeWhile_eq_self_iff.mpr (by simpa [List.all_eq_true] using h2)
  simp only [matchSize, h, isEmpty_false h1, Bool.false_eq_true, if_false]

theorem matchValueSize_bits (val sz szg : List Char) (hval : val ≠ [])
    (hvalb : val.all isBitChar = true) (hsz : matchSize sz = some szg) :
    matchValueSize (val ++ ' ' :: sz) = some (val, szg) := by
  simp only [matchValueSize, takeWhile_token isBitChar val ' ' sz hvalb (by decide),
    drop_token val ' ' sz, isEmpty_false hval, Bool.false_eq_true, if_false,
    hsz, show isWsChar ' ' = true from rfl, if_true]

theorem matchAfterHash_mk {ts nm val sz szg : List Char}
    (hts : ts ≠ []) (htsd : ts.all isDigitChar = true)
    (hnm : nm ≠ []) (hnmc : nm.all isNameChar = true)
    (hval : val ≠ []) (hvalb : val.all isBitChar = true)
    (hsz : matchSize sz = some szg) :
    matchAfterHash (ts ++ ' ' :: (nm ++ ' ' :: (val ++ ' ' :: sz)))
      = some ⟨ts, nm, val, szg⟩ := by
  simp only [matchAfterHash,
    takeWhile_token isDigitChar ts ' ' (nm ++ ' ' :: (val ++ ' ' :: sz)) htsd (by decide),
    drop_token ts ' ' (nm ++ ' ' :: (val ++ ' ' :: sz)), isEmpty_false hts,
    takeWhile_token isNameChar nm ' ' (val ++ ' ' :: sz) hnmc (by decide),
    drop_token nm ' ' (val ++ ' ' :: sz), isEmpty_false hnm,
    matchValueSize_bits val sz szg hval hvalb hsz,
    show isWsChar ' ' = true from rfl, Bool.false_eq_true, if_false,
    Option.map_some]
  simp

theorem findCaptures_mkLine {ts nm val sz szg : List Char}
    (hts : ts ≠ []) (htsd : ts.all isDigitChar = true)
    (hnm : nm ≠ []) (hnmc : nm.all isNameChar = true)
    (hval : val ≠ []) (hvalb : val.all isBitChar = true)
    (hsz : matchSize sz = some szg) :
    findCaptures (mkLine ts nm val sz) = some ⟨ts, nm, val, szg⟩ := by
  simp [mkLine, findCaptures, matchAfterHash_mk hts htsd hnm hnmc hval hvalb hsz]

theorem from_str_mkLine {ts nm val sz szg : List Char}
    (hts : ts ≠ []) (htsd : ts.all isDigitChar = true)
    (hnm : nm ≠ []) (hnmc : nm.all isNameChar = true)
    (hval : val ≠ []) (hvalb : val.all isBitChar = true)
    (hsz : matchSize sz = some szg)
    (hsznil : sz ≠ []) (hsznws : ∀ c ∈ sz, isWsChar c = false) :
    ValueChange.from_str (mkLine ts nm val sz) = fromGroups ⟨ts, nm, val, szg⟩ := by
  unfold ValueChange.from_str
  rw [trimChars_mkLine hsznil hsznws,
    findCaptures_mkLine hts htsd hnm hnmc hval hvalb hsz]

theorem parseU64_digits {cs : List Char} (h1 : cs ≠ []) (h2 : cs.all isDigitChar = true)
    (h3 : natOfDigits cs < 2 ^ 64) : parseU64 cs = some (natOfDigits cs) := by
  unfold parseU64
  rw [if_pos ⟨h1, h2, h3⟩]

theorem parseU64_overflow {cs : List Char} (h3 : ¬ natOfDigits cs < 2 ^ 64) :
    parseU64 cs = none := by
  unfold parseU64
  rw [if_neg]
  rintro ⟨-, -, hb⟩
  exact h3 hb

theorem scalarOfChar_isSome {c : Char} (h : isBitChar c = true) :
    scalarOfChar c = some (scalarOfCharD c) := by
  simp only [isBitChar, Bool.or_eq_true, decide_eq_true_eq] at h
  rcases h with ((((h1 | h1) | h1) | h1) | h1) | h1 <;> subst h1 <;> rfl

theorem vecOfToken_of_bits {val : List Char} (h : val.all isBitChar = true) :
    vecOfToken val = some (val.map scalarOfCharD) := by
  induction val with
  | nil => rfl
  | cons c t ih =>
    simp only [List.all_cons, Bool.and_eq_true] at h
    simp [vecOfToken, scalarOfChar_isSome h.1, ih h.2]

theorem parseF64_digits {cs : List Char} (h1 : cs ≠ []) (h2 : cs.all isDigitChar = true) :
    parseF64 cs = some ((natOfDigits cs : ℚ)) := by
  unfold parseF64
  rw [if_pos ⟨h1, h2⟩]

/-- Every character of `takeWhile p` satisfies `p`. -/
theorem all_takeWhile (p : Char → Bool) (l : List Char) : (l.takeWhile p).all p = true := by
  induction l with
  | nil => rfl
  | cons c t ih =>
    rw [List.takeWhile_cons]
    cases hc : p c with
    | false => rfl
    | true => simp [hc, ih]

/-- Dropping the maximal `p`-run leaves the `dropWhile`. -/
theorem drop_takeWhile_length (p : Char → Bool) (l : List Char) :
    l.drop (l.takeWhile p).length = l.dropWhile p := by
  induction l with
  | nil => rfl
  | cons a t ih =>
    rw [List.takeWhile_cons, List.dropWhile_cons]
    cases hp : p a with
    | true => simpa [hp] using ih
    | false => simp [hp]

/-- The head of `dropWhile p` fails `p`. -/
theorem head_dropWhile_false (p : Char → Bool) (l : List Char) {c : Char} {t : List Char}
    (h : l.dropWhile p = c :: t) : p c = false := by
  induction l with
  | nil => simp at h
  | cons a r ih =>
    rw [List.dropWhile_cons] at h
    by_cases ha : p a = true
    · exact ih (by simpa [ha] using h)
    · rw [if_neg ha] at h
      cases h
      exact Bool.not_eq_true _ |>.mp ha

/-- On an all-bits token that is not all digits (it contains an `x` or `z`
character), `f64` parsing fails: the character after the digit prefix is a
bit character but not `.`. -/
theorem parseF64_none_of_bits_not_digits {cs : List Char} (hb : cs.all isBitChar = true)
    (hnd : cs.all isDigitChar = false) : parseF64 cs = none := by
  have hne : ¬ (cs ≠ [] ∧ cs.all isDigitChar = true) := by
    rintro ⟨-, h⟩; rw [hnd] at h; cases h
  simp only [parseF64, if_neg hne, drop_takeWhile_length]
  cases hdw : cs.dropWhile isDigitChar with
  | nil =>
    exfalso
    have : cs.takeWhile isDigitChar = cs := by
      have := List.takeWhile_append_dropWhile isDigitChar cs
      rwa [hdw, List.append_nil] at this
    rw [← this, all_takeWhile] at hnd
    cases hnd
  | cons c t =>
    have hcb : isBitChar c = true := by
      have hmem : c ∈ cs := by
        have hmem1 : c ∈ cs.dropWhile isDigitChar := by
          rw [hdw]; exact List.mem_cons_self c t
        exact (List.dropWhile_sublist isDigitChar).subset hmem1
      exact (List.all_eq_true.mp hb) c hmem
    have hcdot : ¬ c = '.' := by
      simp only [isBitChar, Bool.or_eq_true, decide_eq_true_eq] at hcb
      rcases hcb with ((((h1 | h1) | h1) | h1) | h1) | h1 <;> subst h1 <;> decide
    dsimp only
    rw [if_neg (by rintro ⟨-, h, -⟩; exact hcdot h)]

theorem fromGroups_vector (ts nm val sz : List Char)
    (hts : ts ≠ []) (htsd : ts.all isDigitChar = true) (htsb : natOfDigits ts < 2 ^ 64)
    (hszne : sz ≠ []) (hszd : sz.all isDigitChar = true) (hszb : natOfDigits sz < 2 ^ 64)
    (hw1 : natOfDigits sz ≠ 1) (hvalb : val.all isBitChar = true) :
    fromGroups ⟨ts, nm, val, sz⟩ =
      if val.length > natOfDigits sz then .error .ValueTooLargeForVecWidth
      else .ok ⟨natOfDigits ts, nm, .BinaryVector (natOfDigits sz) (val.map scalarOfCharD)⟩ := by
  simp only [fromGroups, parseU64_digits hts htsd htsb,
    if_neg (fun hf => not_all_digit_of_eq_f hszd hf),
    parseU64_digits hszne hszd hszb, if_neg hw1, vecOfToken_of_bits hvalb,
    List.length_map]

theorem fromGroups_size_overflow (ts nm val sz : List Char)
    (hts : ts ≠ []) (htsd : ts.all isDigitChar = true) (htsb : natOfDigits ts < 2 ^ 64)
    (hszd : sz.all isDigitChar = true) (hszb : ¬ natOfDigits sz < 2 ^ 64) :
    fromGroups ⟨ts, nm, val, sz⟩ = .error .InvalidValueType := by
  simp only [fromGroups, parseU64_digits hts htsd htsb,
    if_neg (fun hf => not_all_digit_of_eq_f hszd hf), parseU64_overflow hszb]

theorem fromGroups_float (ts nm val : List Char)
    (hts : ts ≠ []) (htsd : ts.all isDigitChar = true) (htsb : natOfDigits ts < 2 ^ 64) :
    fromGroups ⟨ts, nm, val, ['f']⟩ =
      (match parseF64 val with
       | none => .error .InvalidValue
       | some r => .ok ⟨natOfDigits ts, nm, .Real r⟩) := by
  simp only [fromGroups, parseU64_digits hts htsd htsb, if_pos rfl, ite_true]

theorem ne_nil_of_isEmpty_false {l : List Char} (h : l.isEmpty = false) : l ≠ [] := by
  cases l with
  | nil => cases h
  | cons a t => exact List.cons_ne_nil a t

/-- A successful match never produces an empty value group. -/
theorem matchValueDecimal_val_ne_nil {cs v szg : List Char}
    (h : matchValueDecimal cs = some (v, szg)) : v ≠ [] := by
  simp only [matchValueDecimal] at h
  split at h
  · split at h
    · cases h
    · split at h
      · split at h
        · cases h
        · rcases Option.map_eq_some'.mp h with ⟨z, hz, hpair⟩
          cases hpair
          simp
      · cases h
  · cases h

/-- A successful match never produces an empty value group. -/
theorem matchValueSize_val_ne_nil {cs v szg : List Char}
    (h : matchValueSize cs = some (v, szg)) : v ≠ [] := by
  simp only [matchValueSize] at h
  split at h
  · exact matchValueDecimal_val_ne_nil h
  · rename_i hne
    split at h
    · split at h
      · split at h
        · cases h
          intro hnil
          exact hne (by rw [hnil]; rfl)
        · exact matchValueDecimal_val_ne_nil h
      · exact matchValueDecimal_val_ne_nil h
    · exact matchValueDecimal_val_ne_nil h

/-- A successful match attempt never produces an empty value group. -/
theorem matchAfterHash_val_ne_nil {cs : List Char} {g : RawGroups}
    (h : matchAfterHash cs = some g) : g.val ≠ [] := by
  simp only [matchAfterHash] at h
  split at h
  · cases h
  · split at h
    · split at h
      · cases h
      · split at h
        · cases h
        · split at h
          · split at h
            · cases h
            · rcases Option.map_eq_some'.mp h with ⟨p, hp, hg⟩
              subst hg
              obtain ⟨v, z⟩ := p
              exact matchValueSize_val_ne_nil hp
          · cases h
    · cases h

/-- A successful capture never has an empty value group. -/
theorem findCaptures_val_ne_nil : ∀ {cs : List Char} {g : RawGroups},
    findCaptures cs = some g → g.val ≠ [] := by
  intro cs
  induction cs with
  | nil => intro g h; cases h
  | cons c rest ih =>
    intro g h
    simp only [findCaptures] at h
    by_cases hc : c = '#'
    · rw [if_pos hc] at h
      cases hm : matchAfterHash rest with
      | some g2 =>
        rw [hm] at h
        cases h
        exact matchAfterHash_val_ne_nil hm
      | none =>
        rw [hm] at h
        exact ih h
    · rw [if_neg hc] at h
      exact ih h

theorem vecOfToken_length : ∀ {cs : List Char} {v : List ScalarValue},
    vecOfToken cs = some v → v.length = cs.length := by
  intro cs
  induction cs with
  | nil => intro v h; cases h; rfl
  | cons c rest ih =>
    intro v h
    simp only [vecOfToken] at h
    cases hc : scalarOfChar c with
    | none => rw [hc] at h; cases h
    | some s =>
      rw [hc] at h
      rcases Option.map_eq_some'.mp h with ⟨t, ht, hv⟩
      subst hv
      simp [ih ht]

/-- Any successfully parsed binary vector has positive declared width: the
value token is nonempty and its length is checked against the width. -/
theorem ok_vector_width_pos {s : List Char} {vc : ValueChange}
    (h : ValueChange.from_str s = .ok vc) {w : Nat} {v : List ScalarValue}
    (hv : vc.value = .BinaryVector w v) : 0 < w := by
  unfold ValueChange.from_str at h
  cases hfc : findCaptures (trimChars s) with
  | none => rw [hfc] at h; cases h
  | some g =>
    rw [hfc] at h
    have hvne : g.val ≠ [] := findCaptures_val_ne_nil hfc
    simp only [fromGroups] at h
    split at h
    · cases h
    · split at h
      · split at h
        · cases h
        · cases h
          simp at hv
      · split at h
        · cases h
        · split at h
          · split at h
            · cases h
            · cases h
              simp at hv
          · split at h
            · cases h
            · rename_i vec hvec
              split at h
              · cases h
              · rename_i hlen
                cases h
                simp only at hv
                cases hv
                have hlv := vecOfToken_length hvec
                have hpos : 0 < g.val.length := List.length_pos.mpr hvne
                omega

/-! ## Helper lemmas for claim C4 -/

/-- Text containing no `#` contributes no match attempt. -/
theorem findCaptures_append_no_hash {pre s : List Char} (h : ∀ c ∈ pre, ¬ c = '#') :
    findCaptures (pre ++ s) = findCaptures s := by
  induction pre with
  | nil => rfl
  | cons c t ih =>
    rw [List.cons_append]
    simp only [findCaptures]
    rw [if_neg (h c (List.mem_cons_self c t))]
    exact ih (fun x hx => h x (List.mem_cons_of_mem c hx))

theorem head?_ws_false {l : List Char} (h : (l.head?.all fun a => !isWsChar a) = true) :
    ∀ a, l.head? = some a → isWsChar a = false := by
  intro a ha
  rw [ha, Option.all_some] at h
  simpa using h

theorem getLast?_ws_false {l : List Char} (h : (l.getLast?.all fun a => !isWsChar a) = true) :
    ∀ a, l.getLast? = some a → isWsChar a = false := by
  intro a ha
  rw [ha, Option.all_some] at h
  simpa using h

/-! ## Claims C4, C6, C7, C9, C10: the line parser -/

/-- Claim C4 counterexample: the line `x#1 a 1 1` is, after trimming, *not* of
the exact grammar form `#<timestamp> <signal_name> <value-token>
<size-token>` (it has extra leading content), yet `ValueChange::from_str`
does not return `InvalidFormat` — it parses the embedded record.  This
refutes C4 as stated. -/
theorem c4_counterexample :
    specExactGrammar (trimChars (str "x#1 a 1 1")) = false ∧
    ValueChange.from_str (str "x#1 a 1 1") = .ok ⟨1, str "a", .Scalar .V1⟩ := by
  constructor
  · decide
  · decide

/-- Claim C4 (amended): the regex is applied with an unanchored search, so parse
does not require the whole trimmed line to match the grammar: prefixing a
line with arbitrary junk that contains no `#` and no whitespace at its
boundary leaves the parse result unchanged — extra content around an
embedded well-formed record is accepted, not rejected with
`InvalidFormat`. -/
theorem c4_unanchored_parse (pre s : List Char)
    (hpre : ∀ c ∈ pre, ¬ c = '#' ∧ isWsChar c = false)
    (hh : (s.head?.all fun a => !isWsChar a) = true)
    (hl : (s.getLast?.all fun a => !isWsChar a) = true) :
    ValueChange.from_str (pre ++ s) = ValueChange.from_str s := by
  have hh' := head?_ws_false hh
  have hl' := getLast?_ws_false hl
  have htrims : trimChars s = s := trimChars_eq_self hh' hl'
  have htrim : trimChars (pre ++ s) = pre ++ s := by
    apply trimChars_eq_self
    · intro a ha
      cases pre with
      | nil => exact hh' a ha
      | cons c t =>
        rw [List.cons_append, List.head?_cons] at ha
        injection ha with hca
        subst hca
        exact (hpre c (List.mem_cons_self c t)).2
    · intro a ha
      rw [List.getLast?_append] at ha
      cases hs : s.getLast? with
      | some b =>
        rw [hs] at ha
        cases ha
        exact hl' _ hs
      | none =>
        rw [hs] at ha
        exact (hpre a (List.mem_of_getLast?_eq_some ha)).2
  unfold ValueChange.from_str
  rw [htrim, htrims, findCaptures_append_no_hash (fun c hc => (hpre c hc).1)]

/-- Witness for C4's amended theorem at a concrete input: `#`-free junk
prefixed to a well-formed record does not change the parse. -/
theorem c4_unanchored_parse_witness :
    ValueChange.from_str (str "junk" ++ str "#1 a 1 1")
      = ValueChange.from_str (str "#1 a 1 1") :=
  c4_unanchored_parse (str "junk") (str "#1 a 1 1") (by decide) (by decide) (by decide)

/-- Claim C6 counterexample: the line `#1 sig 2 8` has size-token `8` (N = 8 > 1)
and value-token `2`, whose character `2` lies outside `{0,1,x,X,z,Z}`;
C6 says this yields `InvalidValue`, but the regex rejects the line
entirely and parse returns `InvalidFormat`. -/
theorem c6_counterexample :
    ValueChange.from_str (str "#1 sig 2 8") = .error .InvalidFormat ∧
    ValueChange.from_str (str "#1 sig 2 8") ≠ .error .InvalidValue := by
  constructor
  · decide
  · decide

/-- Claim C6 (amended): for a grammar-shaped line with valid timestamp (fits in
u64), size-token a digit string of value N with 1 < N < 2^64, and
value-token a nonempty string over `{0,1,x,X,z,Z}`: length ≤ N parses to
`BinaryVector` of width N with the token's digits in order, length > N
gives `ValueTooLargeForVecWidth`.  A value-token character outside the
allowed set yields `InvalidValue` only for tokens of decimal-literal form
(the only other tokens the grammar admits), e.g. `#222 signame 123.4 8`;
other such lines fail the grammar with `InvalidFormat` (see the
counterexample). -/
theorem c6_vector_parse (ts nm val sz : List Char)
    (hts : ts ≠ []) (htsd : ts.all isDigitChar = true) (htsb : natOfDigits ts < 2 ^ 64)
    (hnm : nm ≠ []) (hnmc : nm.all isNameChar = true)
    (hval : val ≠ []) (hvalb : val.all isBitChar = true)
    (hszne : sz ≠ []) (hszd : sz.all isDigitChar = true)
    (hszb : natOfDigits sz < 2 ^ 64) (hw : 1 < natOfDigits sz) :
    (val.length ≤ natOfDigits sz →
      ValueChange.from_str (mkLine ts nm val sz)
        = .ok ⟨natOfDigits ts, nm, .BinaryVector (natOfDigits sz) (val.map scalarOfCharD)⟩) ∧
    (natOfDigits sz < val.length →
      ValueChange.from_str (mkLine ts nm val sz) = .error .ValueTooLargeForVecWidth) ∧
    ValueChange.from_str (str "#222 signame 123.4 8") = .error .InvalidValue := by
  have hnws : ∀ c ∈ sz, isWsChar c = false := fun c hc =>
    isWsChar_eq_false_of_isDigitChar (List.all_eq_true.mp hszd c hc)
  rw [from_str_mkLine hts htsd hnm hnmc hval hvalb (matchSize_digits hszne hszd) hszne hnws,
    fromGroups_vector ts nm val sz hts htsd htsb hszne hszd hszb (by omega) hvalb]
  refine ⟨fun hle => ?_, fun hgt => ?_, by decide⟩
  · rw [if_neg (by omega)]
  · rw [if_pos (by omega)]

/-- Witness for C6's amended theorem: the spec's own example
`#100 signame 11110010 8` parses to an 8-wide binary vector. -/
theorem c6_vector_parse_witness :
    ValueChange.from_str (mkLine (str "100") (str "signame") (str "11110010") (str "8"))
      = .ok ⟨100, str "signame",
          .BinaryVector 8 [.V1, .V1, .V1, .V1, .V0, .V0, .V1, .V0]⟩ := by
  have h := (c6_vector_parse (str "100") (str "signame") (str "11110010") (str "8")
      (by decide) (by decide) (by decide) (by decide) (by decide) (by decide) (by decide)
      (by decide) (by decide) (by decide) (by decide)).1 (by decide)
  exact h.trans (by decide)

/-- Claim C7 counterexample: the line `#1 a 1 q` has a size-token `q` that is not
`f` and does not parse as a non-negative integer; C7 says parse returns
`InvalidValueType` rather than some other error such as `InvalidFormat`,
but the regex rejects the line and parse returns `InvalidFormat`. -/
theorem c7_counterexample :
    ValueChange.from_str (str "#1 a 1 q") = .error .InvalidFormat ∧
    ValueChange.from_str (str "#1 a 1 q") ≠ .error .InvalidValueType := by
  constructor
  · decide
  · decide

/-- Claim C7 (amended): `InvalidValueType` arises exactly from size-tokens that
the regex accepts as digit strings but whose value overflows the 64-bit
unsigned range (with a valid timestamp); a size-token that is neither a
digit string nor `f` never reaches that branch — the whole line fails the
grammar with `InvalidFormat` (see the counterexample). -/
theorem c7_size_overflow (ts nm val sz : List Char)
    (hts : ts ≠ []) (htsd : ts.all isDigitChar = true) (htsb : natOfDigits ts < 2 ^ 64)
    (hnm : nm ≠ []) (hnmc : nm.all isNameChar = true)
    (hval : val ≠ []) (hvalb : val.all isBitChar = true)
    (hszne : sz ≠ []) (hszd : sz.all isDigitChar = true)
    (hszb : 2 ^ 64 ≤ natOfDigits sz) :
    ValueChange.from_str (mkLine ts nm val sz) = .error .InvalidValueType := by
  have hnws : ∀ c ∈ sz, isWsChar c = false := fun c hc =>
    isWsChar_eq_false_of_isDigitChar (List.all_eq_true.mp hszd c hc)
  rw [from_str_mkLine hts htsd hnm hnmc hval hvalb (matchSize_digits hszne hszd) hszne hnws,
    fromGroups_size_overflow ts nm val sz hts htsd htsb hszd (by omega)]

/-- Witness for C7's amended theorem: a 2^64 size-token gives
`InvalidValueType`. -/
theorem c7_size_overflow_witness :
    ValueChange.from_str
        (mkLine (str "1") (str "a") (str "1") (str "18446744073709551616"))
      = .error .InvalidValueType :=
  c7_size_overflow (str "1") (str "a") (str "1") (str "18446744073709551616")
    (by decide) (by decide) (by decide) (by decide) (by decide) (by decide) (by decide)
    (by decide) (by decide) (by decide)

/-- Claim C9 counterexample: the line `#1 a 1.2 0` has a size-token parsing to 0,
yet parse returns `InvalidValue` (the character loop hits `.` before the
length check), not `ValueTooLargeForVecWidth` as C9 states. -/
theorem c9_counterexample :
    ValueChange.from_str (str "#1 a 1.2 0") = .error .InvalidValue ∧
    ValueChange.from_str (str "#1 a 1.2 0") ≠ .error .ValueTooLargeForVecWidth := by
  constructor
  · decide
  · decide

/-- Claim C9 (amended): a width-0 line never parses successfully and no
`BinaryVector` of width 0 is ever produced, but the error is
`ValueTooLargeForVecWidth` only when the value-token is a bit string (and
the timestamp valid); a decimal-literal value-token fails earlier with
`InvalidValue` (see the counterexample). -/
theorem c9_width_zero :
    (∀ ts nm val sz : List Char,
        ts ≠ [] → ts.all isDigitChar = true → natOfDigits ts < 2 ^ 64 →
        nm ≠ [] → nm.all isNameChar = true →
        val ≠ [] → val.all isBitChar = true →
        sz ≠ [] → sz.all isDigitChar = true → natOfDigits sz = 0 →
        ValueChange.from_str (mkLine ts nm val sz) = .error .ValueTooLargeForVecWidth) ∧
    (∀ (s : List Char) (vc : ValueChange) (w : Nat) (v : List ScalarValue),
        ValueChange.from_str s = .ok vc → vc.value = .BinaryVector w v → 0 < w) := by
  constructor
  · intro ts nm val sz hts htsd htsb hnm hnmc hval hvalb hszne hszd hsz0
    have hnws : ∀ c ∈ sz, isWsChar c = false := fun c hc =>
      isWsChar_eq_false_of_isDigitChar (List.all_eq_true.mp hszd c hc)
    rw [from_str_mkLine hts htsd hnm hnmc hval hvalb (matchSize_digits hszne hszd) hszne hnws,
      fromGroups_vector ts nm val sz hts htsd htsb hszne hszd (by omega) (by omega) hvalb]
    rw [hsz0, if_pos (List.length_pos.mpr hval)]
  · intro s vc w v hok hv
    exact ok_vector_width_pos hok hv

/-- Witness for C9's amended theorem: `#1 a 1 0` fails with
`ValueTooLargeForVecWidth`. -/
theorem c9_width_zero_witness :
    ValueChange.from_str (mkLine (str "1") (str "a") (str "1") (str "0"))
      = .error .ValueTooLargeForVecWidth :=
  c9_width_zero.1 (str "1") (str "a") (str "1") (str "0")
    (by decide) (by decide) (by decide) (by decide) (by decide) (by decide) (by decide)
    (by decide) (by decide) (by decide)

/-- Claim C10 counterexample: the line `#1 a 2 f` has size-token `f` and a
value-token `2` that parses as an f64 (2.0), yet parse returns
`InvalidFormat` — the value group of the regex admits only bit strings and
`\d+\.\d+` literals, so `2` fails the grammar before the f64 conversion is
reached.  This refutes C10's "Ok exactly when the value-token parses as an
f64". -/
theorem c10_counterexample :
    ValueChange.from_str (str "#1 a 2 f") = .error .InvalidFormat ∧
    ValueChange.from_str (str "#1 a 2 f") ≠ .ok ⟨1, str "a", .Real 2⟩ := by
  constructor
  · decide
  · decide

/-- Claim C10 (amended): for grammar-shaped lines with a valid timestamp, size
token `f` and a value-token over `{0,1,x,X,z,Z}`: parse succeeds with
`Real` of the token's decimal value exactly when the token is all digits
(so `#1 a 1 f` gives `Real 1`), and fails with `InvalidValue` when the
token contains an `x`/`z` character (so `#1 a x f` fails); value-tokens
outside the grammar language fail with `InvalidFormat` even if they parse
as f64 (see the counterexample). -/
theorem c10_float_parse (ts nm val : List Char)
    (hts : ts ≠ []) (htsd : ts.all isDigitChar = true) (htsb : natOfDigits ts < 2 ^ 64)
    (hnm : nm ≠ []) (hnmc : nm.all isNameChar = true)
    (hval : val ≠ []) (hvalb : val.all isBitChar = true) :
    (val.all isDigitChar = true →
      ValueChange.from_str (mkLine ts nm val ['f'])
        = .ok ⟨natOfDigits ts, nm, .Real ((natOfDigits val : ℚ))⟩) ∧
    (val.all isDigitChar = false →
      ValueChange.from_str (mkLine ts nm val ['f']) = .error .InvalidValue) := by
  have hmk := from_str_mkLine hts htsd hnm hnmc hval hvalb
    (show matchSize ['f'] = some ['f'] from rfl) (by simp) (by decide)
  rw [hmk, fromGroups_float ts nm val hts htsd htsb]
  constructor
  · intro hd
    rw [parseF64_digits hval hd]
  · intro hnd
    rw [parseF64_none_of_bits_not_digits hvalb hnd]

/-- Witness for C10's amended theorem: `#1 a 1 f` parses as `Real 1` and
`#1 a x f` fails with `InvalidValue`. -/
theorem c10_float_parse_witness :
    ValueChange.from_str (mkLine (str "1") (str "a") (str "1") ['f'])
      = .ok ⟨1, str "a", .Real 1⟩ ∧
    ValueChange.from_str (mkLine (str "1") (str "a") (str "x") ['f'])
      = .error .InvalidValue := by
  constructor
  · exact ((c10_float_parse (str "1") (str "a") (str "1")
      (by decide) (by decide) (by decide) (by decide) (by decide) (by decide)
      (by decide)).1 (by decide)).trans (by decide)
  · exact (c10_float_parse (str "1") (str "a") (str "x")
      (by decide) (by decide) (by decide) (by decide) (by decide) (by decide)
      (by decide)).2 (by decide)

/-! ## Helper lemmas: the encoder body -/

/-- The body loop writes one timestamp marker per event, unconditionally,
in event order. -/
theorem encodeBody_markers : ∀ {evs : List ValueChange} {reg : Registry} {out : List OutRec},
    encodeBody reg evs = some out → out.filterMap tsOf = evs.map (·.timestamp) := by
  intro evs
  induction evs with
  | nil =>
    intro reg out h
    cases h
    rfl
  | cons e rest ih =>
    intro reg out h
    simp only [encodeBody] at h
    cases he : encodeEvent reg e with
    | none => rw [he] at h; cases h
    | some r1 =>
      rw [he] at h
      cases hr : encodeBody reg rest with
      | none => rw [hr] at h; cases h
      | some r2 =>
        rw [hr] at h
        cases h
        rw [List.filterMap_append, ih hr]
        simp only [encodeEvent] at he
        cases hl : regLookup reg e.signal_name with
        | none => rw [hl] at he; cases he
        | some ent =>
          rw [hl] at he
          cases he
          rw [List.map_cons]
          cases e.value <;> simp [tsOf]

/-- If every event's name resolves in the registry, the body loop never
hits the fatal missing-identifier branch. -/
theorem encodeBody_isSome {reg : Registry} : ∀ {evs : List ValueChange},
    (∀ e ∈ evs, (regLookup reg e.signal_name).isSome = true) →
    ∃ out, encodeBody reg evs = some out := by
  intro evs
  induction evs with
  | nil => intro _; exact ⟨[], rfl⟩
  | cons e rest ih =>
    intro h
    obtain ⟨out2, hout2⟩ := ih (fun x hx => h x (List.mem_cons_of_mem e hx))
    have he := h e (List.mem_cons_self e rest)
    cases hl : regLookup reg e.signal_name with
    | none => rw [hl] at he; cases he
    | some ent =>
      refine ⟨[OutRec.timestamp e.timestamp,
          match e.value with
          | .Scalar v => OutRec.scalar ent.code v
          | .BinaryVector _ v => OutRec.vector ent.code v
          | .Real v => OutRec.realChange ent.code v] ++ out2, ?_⟩
      simp only [encodeBody, encodeEvent, hl, hout2]

/-! ## Helper lemmas: the registry -/

/-- Lookup in a registry extended on the right. -/
theorem regLookup_append (reg : Registry) (m : List Char) (ent : RegEntry) (n : List Char) :
    regLookup (reg ++ [(m, ent)]) n =
      ((regLookup reg n).or (if m = n then some ent else none)) := by
  unfold regLookup
  rw [List.find?_append]
  cases hf : reg.find? (fun p => p.1 = n) with
  | some p => simp [Option.or]
  | none =>
    by_cases hmn : m = n
    · simp [List.find?, hmn, Option.or]
    · simp [List.find?, hmn, Option.or]

/-- The registry loop: entries persist unchanged, and the entry of a name
not yet registered is determined by its first occurrence in the remaining
events. -/
theorem buildRegistryAux_lookup :
    ∀ {evs : List ValueChange} {reg : Registry} {next : Nat} {reg' : Registry},
    buildRegistryAux reg next evs = some reg' →
    ∀ n : List Char,
      (∀ ent, regLookup reg n = some ent → regLookup reg' n = some ent) ∧
      (regLookup reg n = none →
        ((regLookup reg' n).map (fun ent => (ent.varType, ent.size)))
          = ((evs.find? (fun e' => e'.signal_name = n)).map
              (fun e => typeWidthFor e.value))) := by
  intro evs
  induction evs with
  | nil =>
    intro reg next reg' h n
    cases h
    exact ⟨fun ent he => he, fun hn => by rw [hn]; rfl⟩
  | cons e rest ih =>
    intro reg next reg' h n
    simp only [buildRegistryAux] at h
    cases hl : regLookup reg e.signal_name with
    | some ent0 =>
      rw [hl] at h
      refine ⟨(ih h n).1, fun hn => ?_⟩
      have hne : ¬ (e.signal_name = n) := by
        intro heq
        rw [heq, hn] at hl
        cases hl
      rw [List.find?_cons_of_neg _ (by simpa using hne)]
      exact (ih h n).2 hn
    | none =>
      rw [hl] at h
      by_cases hlt : next < 93
      · rw [if_pos hlt] at h
        have hstep := ih h n
        constructor
        · intro ent he
          apply hstep.1
          rw [regLookup_append]
          rw [he]
          rfl
        · intro hn
          by_cases hne : e.signal_name = n
          · subst hne
            rw [List.find?_cons_of_pos _ (by simp)]
            have hres := hstep.1 ⟨(typeWidthFor e.value).1, (typeWidthFor e.value).2, next⟩ ?hlook
            case hlook =>
              rw [regLookup_append, hn]
              simp [Option.or]
            rw [hres]
            rfl
          · rw [List.find?_cons_of_neg _ (by simpa using hne)]
            apply hstep.2
            rw [regLookup_append, hn]
            simp [Option.or, hne]
      · rw [if_neg hlt] at h
        cases h

/-- Continuing the registry loop over appended events. -/
theorem buildRegistryAux_append :
    ∀ {evs : List ValueChange} {reg : Registry} {next : Nat} {reg' : Registry},
    buildRegistryAux reg next evs = some reg' → next = reg.length →
    ∀ extra, buildRegistryAux reg next (evs ++ extra)
      = buildRegistryAux reg' reg'.length extra := by
  intro evs
  induction evs with
  | nil =>
    intro reg next reg' h hn extra
    cases h
    rw [List.nil_append, hn]
  | cons e rest ih =>
    intro reg next reg' h hn extra
    rw [List.cons_append]
    simp only [buildRegistryAux] at h ⊢
    cases hl : regLookup reg e.signal_name with
    | some ent0 =>
      rw [hl] at h
      dsimp only at h ⊢
      exact ih h hn extra
    | none =>
      rw [hl] at h
      dsimp only at h ⊢
      by_cases hlt : next < 93
      · rw [if_pos hlt] at h ⊢
        exact ih h (by simp [hn]) extra
      · rw [if_neg hlt] at h
        cases h

theorem card_insert_erase {α : Type} [DecidableEq α] (s : Finset α) (a : α) :
    (insert a s).card = (s.erase a).card + 1 := by
  by_cases h : a ∈ s
  · rw [Finset.insert_eq_self.mpr h, Finset.card_erase_of_mem h]
    have hpos : 0 < s.card := Finset.card_pos.mpr ⟨a, h⟩
    omega
  · rw [Finset.card_insert_of_not_mem h, Finset.erase_eq_of_not_mem h]

/-- Success of the registry loop is exactly the capacity condition: the
number of already-assigned ids plus the number of distinct fresh names
must not exceed 93. -/
theorem buildRegistryAux_isSome :
    ∀ (evs : List ValueChange) {reg : Registry} {next : Nat},
    next = reg.length → reg.length ≤ 93 →
    ((buildRegistryAux reg next evs).isSome = true ↔
      reg.length +
        (((evs.map (·.signal_name)).filter
          (fun n => (regLookup reg n).isNone)).toFinset.card) ≤ 93) := by
  intro evs
  induction evs with
  | nil =>
    intro reg next hn hle
    simp [buildRegistryAux, hle]
  | cons e rest ih =>
    intro reg next hn hle
    cases hl : regLookup reg e.signal_name with
    | some ent0 =>
      have h1 : buildRegistryAux reg next (e :: rest) = buildRegistryAux reg next rest := by
        simp only [buildRegistryAux, hl]
      rw [h1, ih hn hle]
      simp only [List.map_cons, List.filter_cons, hl, Option.isNone_some, Bool.false_eq_true,
        if_false]
    | none =>
      by_cases hlt : next < 93
      · have h1 : buildRegistryAux reg next (e :: rest)
            = buildRegistryAux
                (reg ++ [(e.signal_name,
                  ⟨(typeWidthFor e.value).1, (typeWidthFor e.value).2, next⟩)])
                (next + 1) rest := by
          simp only [buildRegistryAux, hl, if_pos hlt]
        have hlen1 : (reg ++ [(e.signal_name,
            (⟨(typeWidthFor e.value).1, (typeWidthFor e.value).2, next⟩ : RegEntry))]).length
            = reg.length + 1 := by simp
        have hiff := ih
          (show next + 1 = (reg ++ [(e.signal_name,
            (⟨(typeWidthFor e.value).1, (typeWidthFor e.value).2, next⟩ : RegEntry))]).length by
              rw [hlen1, hn])
          (show (reg ++ [(e.signal_name,
            (⟨(typeWidthFor e.value).1, (typeWidthFor e.value).2, next⟩ : RegEntry))]).length ≤ 93 by
              rw [hlen1]; omega)
        rw [h1, hiff, hlen1]
        have hsets : ((rest.map (·.signal_name)).filter
              (fun n => (regLookup (reg ++ [(e.signal_name,
                (⟨(typeWidthFor e.value).1, (typeWidthFor e.value).2, next⟩ : RegEntry))]) n).isNone)).toFinset
            = (((rest.map (·.signal_name)).filter
                (fun n => (regLookup reg n).isNone)).toFinset).erase e.signal_name := by
          ext x
          simp only [List.mem_toFinset, List.mem_filter, Finset.mem_erase]
          constructor
          · rintro ⟨hm, hp⟩
            rw [regLookup_append] at hp
            by_cases hex : e.signal_name = x
            · exfalso
              rw [← hex, hl] at hp
              simp [Option.or] at hp
            · refine ⟨fun hxe => hex hxe.symm, hm, ?_⟩
              cases hrx : regLookup reg x with
              | none => rfl
              | some p => rw [hrx] at hp; simp [Option.or] at hp
          · rintro ⟨hxe, hm, hp⟩
            refine ⟨hm, ?_⟩
            rw [regLookup_append]
            rw [Option.isNone_iff_eq_none] at hp
            rw [hp, if_neg (fun heq => hxe heq.symm)]
            rfl
        rw [hsets]
        have hconsset : (((e :: rest).map (·.signal_name)).filter
              (fun n => (regLookup reg n).isNone)).toFinset
            = insert e.signal_name (((rest.map (·.signal_name)).filter
                (fun n => (regLookup reg n).isNone)).toFinset) := by
          simp only [List.map_cons, List.filter_cons, hl, Option.isNone_none, if_true]
          rw [List.toFinset_cons]
        rw [hconsset, card_insert_erase]
        omega
      · have h1 : buildRegistryAux reg next (e :: rest) = none := by
          simp only [buildRegistryAux, hl, if_neg hlt]
        rw [h1]
        simp only [Option.isSome_none, Bool.false_eq_true, false_iff]
        intro hcontra
        have hmem : e.signal_name ∈ (((e :: rest).map (·.signal_name)).filter
            (fun n => (regLookup reg n).isNone)).toFinset := by
          simp [hl]
        have hpos := Finset.card_pos.mpr ⟨_, hmem⟩
        omega

/-! ## Helper lemmas: the stable sort -/

theorem sortKey_trans : ∀ a b c : ValueChange,
    decide (a.timestamp ≤ b.timestamp) = true →
    decide (b.timestamp ≤ c.timestamp) = true →
    decide (a.timestamp ≤ c.timestamp) = true := by
  intro a b c h1 h2
  simp only [decide_eq_true_eq] at h1 h2 ⊢
  omega

theorem sortKey_total : ∀ a b : ValueChange,
    (decide (a.timestamp ≤ b.timestamp) || decide (b.timestamp ≤ a.timestamp)) = true := by
  intro a b
  simp only [Bool.or_eq_true, decide_eq_true_eq]
  omega

/-- `sort_by_key` is a permutation of its input. -/
theorem sortEvents_perm (evs : List ValueChange) : (sortEvents evs).Perm evs :=
  List.mergeSort_perm evs _

/-- The sorted events carry non-decreasing timestamps. -/
theorem sortEvents_sorted (evs : List ValueChange) :
    ((sortEvents evs).map (·.timestamp)).Pairwise (· ≤ ·) := by
  have hs := List.sorted_mergeSort sortKey_trans sortKey_total evs
  exact List.Pairwise.map (fun e : ValueChange => e.timestamp)
    (fun a b h => of_decide_eq_true h) hs

/-- Stability of `sort_by_key`: for every timestamp `t` the events with
that timestamp appear in the sorted sequence exactly in their original
relative order. -/
theorem sortEvents_filter (evs : List ValueChange) (t : Nat) :
    (sortEvents evs).filter (fun e => e.timestamp == t)
      = evs.filter (fun e => e.timestamp == t) := by
  have hpair : (evs.filter (fun e => e.timestamp == t)).Pairwise
      (fun a b => decide (a.timestamp ≤ b.timestamp) = true) := by
    apply List.pairwise_of_forall_mem_list
    intro a ha b hb
    have ha2 := List.of_mem_filter ha
    have hb2 := List.of_mem_filter hb
    simp only [beq_iff_eq] at ha2 hb2
    simp only [decide_eq_true_eq]
    omega
  have hsub : List.Sublist (evs.filter (fun e => e.timestamp == t))
      (List.mergeSort evs (fun a b => a.timestamp ≤ b.timestamp)) :=
    List.sublist_mergeSort sortKey_trans sortKey_total hpair (List.filter_sublist evs)
  have hsub2 : List.Sublist (evs.filter (fun e => e.timestamp == t))
      ((List.mergeSort evs (fun a b => a.timestamp ≤ b.timestamp)).filter
          (fun e => e.timestamp == t)) := by
    have h2 := hsub.filter (fun e => e.timestamp == t)
    simpa only [List.filter_filter, Bool.and_self] using h2
  have hlen : ((List.mergeSort evs
        (fun a b => a.timestamp ≤ b.timestamp)).filter (fun e => e.timestamp == t)).length
      = (evs.filter (fun e => e.timestamp == t)).length :=
    ((List.mergeSort_perm evs (fun a b => a.timestamp ≤ b.timestamp)).filter
      (fun e => e.timestamp == t)).length_eq
  exact (hsub2.eq_of_length hlen.symm).symm

/-! ## Claims C1, C2, C3, C5, C8: registry and encoder -/

/-- Claim C1 counterexample: two adjacent events with equal timestamp 5 are each
preceded by their own `#5` marker in the encoded body — they do not share
a single marker.  The body loop emits `writer.timestamp(..)` for every
event unconditionally (`main.rs` line 116, with the
`TODO: merge identical timestamps` left in the source). -/
theorem c1_counterexample :
    buildRegistry [⟨5, str "a", .Scalar .V1⟩, ⟨5, str "a", .Scalar .V0⟩]
      = some [(str "a", ⟨.Wire, 1, 0⟩)] ∧
    encodeBody [(str "a", ⟨.Wire, 1, 0⟩)]
        [⟨5, str "a", .Scalar .V1⟩, ⟨5, str "a", .Scalar .V0⟩]
      = some [.timestamp 5, .scalar 0 .V1, .timestamp 5, .scalar 0 .V0] := by
  constructor
  · decide
  · decide

/-- Claim C1 (amended): in the body phase a timestamp marker is emitted before
*every* event's change record, unconditionally: the sequence of markers in
the body equals the timestamp of each encoded event in order, so adjacent
events with equal timestamps each get their own duplicate marker and no
merging occurs. -/
theorem c1_marker_every_event (reg : Registry) (evs : List ValueChange) (out : List OutRec)
    (h : encodeBody reg evs = some out) :
    out.filterMap tsOf = evs.map (·.timestamp) :=
  encodeBody_markers h

/-- Witness for C1's amended theorem at a concrete two-event body with a
shared timestamp: both markers appear. -/
theorem c1_marker_every_event_witness :
    ([OutRec.timestamp 5, .scalar 0 .V1, .timestamp 5, .scalar 0 .V0].filterMap tsOf)
      = ([⟨5, str "a", .Scalar .V1⟩, ⟨5, str "a", .Scalar .V0⟩] : List ValueChange).map
          (·.timestamp) :=
  c1_marker_every_event [(str "a", ⟨.Wire, 1, 0⟩)]
    [⟨5, str "a", .Scalar .V1⟩, ⟨5, str "a", .Scalar .V0⟩]
    [.timestamp 5, .scalar 0 .V1, .timestamp 5, .scalar 0 .V0] (by decide)

/-- Claim C2: identifier allocation is bounded to `[0, 93)`: registry
construction succeeds exactly when the surviving events carry at most 93
distinct signal names; a 94th distinct name makes the allocator's
`expect` fail, aborting the run (modelled as `none`). -/
theorem c2_identifier_capacity (lines : List (List Char)) :
    (((parseLines lines).map (·.signal_name)).dedup.length ≤ 93 →
      ∃ reg, buildRegistry (pipelineEvents lines) = some reg) ∧
    (94 ≤ ((parseLines lines).map (·.signal_name)).dedup.length →
      buildRegistry (pipelineEvents lines) = none) := by
  have hiff := buildRegistryAux_isSome (pipelineEvents lines)
    (show (0 : Nat) = ([] : Registry).length from rfl)
    (show ([] : Registry).length ≤ 93 by decide)
  have hfilter : ((pipelineEvents lines).map (·.signal_name)).filter
      (fun n => (regLookup [] n).isNone) = (pipelineEvents lines).map (·.signal_name) :=
    List.filter_eq_self.mpr (fun a _ => rfl)
  rw [hfilter] at hiff
  have hperm : ((pipelineEvents lines).map (·.signal_name)).Perm
      ((parseLines lines).map (·.signal_name)) :=
    (sortEvents_perm (parseLines lines)).map (·.signal_name)
  have hcard : ((pipelineEvents lines).map (·.signal_name)).toFinset.card
      = ((parseLines lines).map (·.signal_name)).dedup.length := by
    rw [List.card_toFinset]
    exact (hperm.dedup).length_eq
  rw [hcard] at hiff
  simp only [List.length_nil, Nat.zero_add] at hiff
  constructor
  · intro hle
    have hs := hiff.mpr (by omega)
    exact ⟨(buildRegistry (pipelineEvents lines)).get hs, Option.eq_some_of_isSome hs⟩
  · intro hge
    cases hb : buildRegistry (pipelineEvents lines) with
    | none => rfl
    | some reg =>
      exfalso
      have hs : (buildRegistry (pipelineEvents lines)).isSome = true := by
        rw [hb]; rfl
      have := hiff.mp hs
      omega

/-- Witness for C2 at a concrete input: a single line has one distinct
name, so the registry builds. -/
theorem c2_identifier_capacity_witness :
    ∃ reg, buildRegistry (pipelineEvents [str "#1 a 1 1"]) = some reg :=
  (c2_identifier_capacity [str "#1 a 1 1"]).1 (by decide)

/-- Claim C3: for every input line set the encoded body iterates the surviving
parsed events in stable-sorted-by-timestamp order: the sorted sequence is
a permutation of the parsed events, its timestamps are non-decreasing,
events with equal timestamps keep their original relative order, and the
emitted timestamp markers are exactly those timestamps in order — hence
non-decreasing. -/
theorem c3_stable_sorted_markers (lines : List (List Char)) (reg : Registry)
    (out : List OutRec)
    (henc : encodeBody reg (pipelineEvents lines) = some out) :
    (pipelineEvents lines).Perm (parseLines lines) ∧
    (∀ t : Nat, (pipelineEvents lines).filter (fun e => e.timestamp == t)
        = (parseLines lines).filter (fun e => e.timestamp == t)) ∧
    out.filterMap tsOf = (pipelineEvents lines).map (·.timestamp) ∧
    (out.filterMap tsOf).Pairwise (· ≤ ·) := by
  refine ⟨sortEvents_perm (parseLines lines),
    fun t => sortEvents_filter (parseLines lines) t,
    encodeBody_markers henc, ?_⟩
  rw [encodeBody_markers henc]
  exact sortEvents_sorted (parseLines lines)

/-- Witness for C3 at a concrete two-line input (already in timestamp
order, so the stable sort is the identity and the encoder output is
computable). -/
theorem c3_stable_sorted_markers_witness :
    ([OutRec.timestamp 1, .scalar 0 .V1, .timestamp 2, .scalar 0 .V0].filterMap tsOf)
        = (pipelineEvents [str "#1 a 1 1", str "#2 a 0 1"]).map (·.timestamp) ∧
    ((([OutRec.timestamp 1, .scalar 0 .V1, .timestamp 2, .scalar 0 .V0] :
        List OutRec).filterMap tsOf)).Pairwise (· ≤ ·) := by
  have hpe : pipelineEvents [str "#1 a 1 1", str "#2 a 0 1"]
      = parseLines [str "#1 a 1 1", str "#2 a 0 1"] := by
    unfold pipelineEvents sortEvents
    apply List.mergeSort_of_sorted
    decide
  have henc : encodeBody [(str "a", ⟨.Wire, 1, 0⟩)]
      (pipelineEvents [str "#1 a 1 1", str "#2 a 0 1"])
      = some [OutRec.timestamp 1, .scalar 0 .V1, .timestamp 2, .scalar 0 .V0] := by
    rw [hpe]
    decide
  have h := c3_stable_sorted_markers [str "#1 a 1 1", str "#2 a 0 1"]
    [(str "a", ⟨.Wire, 1, 0⟩)]
    [OutRec.timestamp 1, .scalar 0 .V1, .timestamp 2, .scalar 0 .V0] henc
  exact ⟨h.2.2.1, h.2.2.2⟩

/-- Claim C5: the registry entry of each signal name is determined solely by the
name's first occurrence in the event sequence — `Scalar` gives
`(Wire, 1)`, `BinaryVector{width}` gives `(Integer, width)`, `Real` gives
`(Real, 32)` — and processing further events (of any kind or width) leaves
an existing entry unchanged. -/
theorem c5_first_occurrence (evs : List ValueChange) (reg : Registry)
    (h : buildRegistry evs = some reg) :
    (∀ (n : List Char) (e : ValueChange),
        evs.find? (fun x => x.signal_name = n) = some e →
        (regLookup reg n).map (fun ent => (ent.varType, ent.size)) =
          some (match e.value with
                | .Scalar _ => (VarType.Wire, 1)
                | .BinaryVector w _ => (VarType.Integer, w)
                | .Real _ => (VarType.RealType, 32))) ∧
    (∀ (extra : List ValueChange) (reg' : Registry),
        buildRegistry (evs ++ extra) = some reg' →
        ∀ (n : List Char) (ent : RegEntry),
          regLookup reg n = some ent → regLookup reg' n = some ent) := by
  constructor
  · intro n e hfind
    have hm := (buildRegistryAux_lookup h n).2 rfl
    rw [hfind] at hm
    rw [hm, Option.map_some']
    obtain ⟨tsv, nmv, v⟩ := e
    cases v <;> rfl
  · intro extra reg' h2 n ent hent
    have happ := buildRegistryAux_append h
      (show (0 : Nat) = ([] : Registry).length from rfl) extra
    unfold buildRegistry at h2
    rw [happ] at h2
    exact (buildRegistryAux_lookup h2 n).1 ent hent

/-- Witness for C5: in a run where `a` is first seen as a scalar and later
as an 8-bit vector, the registry keeps the scalar-derived entry. -/
theorem c5_first_occurrence_witness :
    (regLookup [(str "a", ⟨.Wire, 1, 0⟩)] (str "a")).map
        (fun ent => (ent.varType, ent.size))
      = some (VarType.Wire, 1) := by
  have h := (c5_first_occurrence
      [⟨1, str "a", .Scalar .V1⟩, ⟨2, str "a", .BinaryVector 8 [.V0]⟩]
      [(str "a", ⟨.Wire, 1, 0⟩)] (by decide)).1 (str "a")
      ⟨1, str "a", .Scalar .V1⟩ (by decide)
  exact h.trans (by decide)

/-- Claim C8: when the registry was built from the same event sequence the body
encoder iterates, every per-event registry lookup succeeds, so the fatal
missing-identifier `unwrap` is unreachable and the whole body encodes. -/
theorem c8_lookup_never_fails (evs : List ValueChange) (reg : Registry)
    (h : buildRegistry evs = some reg) :
    ∃ out, encodeBody reg evs = some out := by
  apply encodeBody_isSome
  intro e he
  cases hl : regLookup reg e.signal_name with
  | some ent => rfl
  | none =>
    exfalso
    have hm := (buildRegistryAux_lookup h e.signal_name).2 rfl
    cases hf : evs.find? (fun x => x.signal_name = e.signal_name) with
    | some e2 =>
      rw [hf, hl] at hm
      cases hm
    | none =>
      rw [List.find?_eq_none] at hf
      exact hf e he (by simp)

/-- Witness for C8: a singleton event body encodes after registry
construction. -/
theorem c8_lookup_never_fails_witness :
    ∃ out, encodeBody [(str "a", ⟨.Wire, 1, 0⟩)] [⟨5, str "a", .Scalar .V1⟩] = some out :=
  c8_lookup_never_fails [⟨5, str "a", .Scalar .V1⟩] [(str "a", ⟨.Wire, 1, 0⟩)] (by decide)
